import Mathlib

/-!
Shallow embedding of the cohort/entropy core of the lingtools repository:
`cohort_info.py`, `lingtools/lex/cohort.py`, `lingtools/prob/probability.py`.

Pronunciations are Python strings of one-character phoneme codes, modelled as
`List Char`.  Python floats are modelled as real numbers and `math.log` as
`Real.logb`.  Python exceptions (`ValueError`) are modelled with `Except String`:
an `Except.error` value corresponds to an uncaught exception propagating out of
the computation.  The `word_prons` dictionary read from the words CSV is
modelled as an association list of (word, pronunciation) pairs, one entry per
word, and the SUBTLEX frequency table as a function `String → Option Nat`
(`none` meaning the word is absent from the table).
-/

abbrev Pron := List Char

/-- lingtools/lex/cohort.py, `prefixes`: all prefixes of a word, including the
word itself: `word[:idx]` for `idx` in `range(1, len(word) + 1)`. -/
def prefixes (word : Pron) : List Pron :=
  (List.range word.length).map (fun idx => word.take (idx + 1))

/-- lingtools/lex/cohort.py, `make_prefix_dict`: the list of input words the
given key string maps to, in input order.  `make_prefix_dict` appends a word
`w` under a key `p` exactly when `p` occurs in `prefixes w`. -/
def membersOf (prons : List Pron) (p : Pron) : List Pron :=
  prons.filter (fun w => decide (p ∈ prefixes w))

/-- lingtools/lex/cohort.py, `uniqueness_point`: `prefix_counts.index(1)` when
`1` occurs in the list, else `len(prefix_counts) - 1` (hence `-1` on `[]`). -/
def uniqueness_point (prefix_counts : List Nat) : Int :=
  if 1 ∈ prefix_counts then (prefix_counts.indexOf 1 : Int)
  else (prefix_counts.length : Int) - 1

/-- Exception-propagating map: models a Python comprehension or generator in
which an exception raised on any element propagates left to right and aborts
the whole computation (and with it the enclosing run, when uncaught). -/
def mapE {α β : Type} (f : α → Except String β) : List α → Except String (List β)
  | [] => Except.ok []
  | x :: xs => do
    let y ← f x
    let ys ← mapE f xs
    return (y :: ys)

/-- lingtools/prob/probability.py, `PROB_TOLERANCE = 0.000001`. -/
def PROB_TOLERANCE : ℝ := 0.000001

/-- Python `math.log(x, base)`: raises ValueError (math domain error) on a
non-positive argument, else returns the real logarithm in the given base. -/
noncomputable def pylog (x base : ℝ) : Except String ℝ :=
  if x ≤ 0 then Except.error "math domain error"
  else Except.ok (Real.logb base x)

/-- lingtools/prob/probability.py, `entropy(probs, base=2)`: raises ValueError
unless `1.0 - PROB_TOLERANCE < sum(probs) <= 1.0 + PROB_TOLERANCE`; returns the
literal `0.0` on a one-element list (avoiding `-0.0`), else
`-sum(prob * log(prob, base) for prob in probs)`, where `math.log` raises its
domain ValueError on the first non-positive probability of the generator. -/
noncomputable def entropy (probs : List ℝ) (base : ℝ) : Except String ℝ :=
  if ¬(1 - PROB_TOLERANCE < probs.sum ∧ probs.sum ≤ 1 + PROB_TOLERANCE) then
    Except.error "Sum of probabilities is not 1.0"
  else if probs.length = 1 then
    Except.ok 0
  else do
    let terms ← mapE (fun prob => (pylog prob base).map (fun l => prob * l)) probs
    return (-terms.sum)

/-- lingtools/prob/probability.py, `surprisal(event_prob, context_prob, base=2)`:
returns the literal `0.0` when the two arguments are equal (avoiding `-0.0`),
raises ValueError when `event_prob > context_prob`, else returns
`-(log(event_prob, base) - log(context_prob, base))`, evaluating
`math.log(event_prob, base)` first, so a non-positive argument raises the
domain ValueError. -/
noncomputable def surprisal (event_prob context_prob base : ℝ) : Except String ℝ :=
  if event_prob = context_prob then
    Except.ok 0
  else if event_prob > context_prob then
    Except.error "Improper conditional probability (event_prob > context_prob)"
  else do
    let le ← pylog event_prob base
    let lc ← pylog context_prob base
    return (-(le - lc))

/-- lingtools/prob/probability.py, `normalize_counts(counts)`: divide each
count by the total. -/
noncomputable def normalize_counts (counts : List ℝ) : List ℝ :=
  counts.map (fun count => count / counts.sum)

/-- cohort_info.py, `VOWELS`: the vowel symbols of the converted
representation (the duplicated `'8'` of the source is kept; the Python `set`
and this list agree on membership). -/
def VOWELS : List Char :=
  ['8', '@', 'o', 'O', 'Y', 'W', '8', 'a', 'A', 'e', 'E', 'i', 'I', 'V', 'u', 'U', 'R']

/-- cohort_info.py, `_get_onsetnuc(phones)`: the onset (maximal initial
non-vowel run) plus the following symbol; raises ValueError when the onset
consumes the whole word, i.e. `phones[len(onset)]` is out of range. -/
def _get_onsetnuc (phones : Pron) : Except String Pron :=
  let onset := phones.takeWhile (fun x => !(VOWELS.contains x))
  match phones[onset.length]? with
  | some nuc => Except.ok (onset ++ [nuc])
  | none =>
    Except.error ("Could not correctly compute onset length in " ++ String.mk phones ++ ".")

/-- cohort_info.py line 209: the dict comprehension mapping every distinct
pronunciation to `_get_onsetnuc(pron)`, with no exception handler around it. -/
def pron_onsetnucs (prons : List Pron) : Except String (List (Pron × Pron)) :=
  mapE (fun p => (_get_onsetnuc p).map (fun o => (p, o))) prons

/-- cohort_info.py lines 142-145, the truth value of
`word in word_freqs and word_freqs[word]`. -/
def has_freq (word_freqs : String → Option Nat) (word : String) : Bool :=
  match word_freqs word with
  | some f => decide (f ≠ 0)
  | none => false

/-- cohort_info.py lines 142-145: Laplace-smoothed frequency of one word:
`word_freqs[word] + 1` when the word is present with a nonzero count, else 1. -/
def smoothed_freq (word_freqs : String → Option Nat) (word : String) : Nat :=
  match word_freqs word with
  | some f => if f ≠ 0 then f + 1 else 1
  | none => 1

/-- cohort_info.py lines 139-147, the `nofreq_count` diagnostic: how many words
had their frequency smoothed to 1 (absent from the table or present with a
zero count). -/
def nofreq_count (word_freqs : String → Option Nat) (words : List (String × Pron)) : Nat :=
  (words.filter (fun wp => ! has_freq word_freqs wp.1)).length

/-- cohort_info.py line 148, `pron_freqs`: total smoothed frequency over the
words having the given pronunciation. -/
def pron_freqs (word_freqs : String → Option Nat) (words : List (String × Pron)) (q : Pron) : Nat :=
  ((words.filter (fun wp => decide (wp.2 = q))).map (fun wp => smoothed_freq word_freqs wp.1)).sum

/-- cohort_info.py line 153, `set(word_prons.values())`: the distinct
pronunciations. -/
def pronsOf (words : List (String × Pron)) : List Pron :=
  (words.map Prod.snd).dedup

/-- cohort_info.py lines 156-164, `prefix_counts`: for a nonempty prefix the
number of distinct member pronunciations, and for the special empty prefix
`len(word_prons)` — the number of words, not of distinct pronunciations. -/
def prefix_count (words : List (String × Pron)) (p : Pron) : Nat :=
  if p = [] then words.length
  else (membersOf (pronsOf words) p).length

/-- cohort_info.py lines 156-165, `prefix_freqs`: for a nonempty prefix the
list of pronunciation frequencies over its distinct member pronunciations; for
the empty prefix the list over `word_prons.itervalues()` — one entry per word,
so the frequency of a homophone pronunciation is repeated. -/
def prefix_freq_list (word_freqs : String → Option Nat) (words : List (String × Pron)) (p : Pron) :
    List Nat :=
  if p = [] then words.map (fun wp => pron_freqs word_freqs words wp.2)
  else (membersOf (pronsOf words) p).map (pron_freqs word_freqs words)

/-- `sum(prefix_freqs[p])`, as used by cohort_info.py line 183. -/
def prefix_freq (word_freqs : String → Option Nat) (words : List (String × Pron)) (p : Pron) : Nat :=
  (prefix_freq_list word_freqs words p).sum

/-- cohort_info.py lines 175-176: unweighted entropy of a prefix, a uniform
distribution over `prefix_counts[prefix]` outcomes. -/
noncomputable def prefix_uniform_entropy (words : List (String × Pron)) (p : Pron) :
    Except String ℝ :=
  entropy (normalize_counts (List.replicate (prefix_count words p) 1)) 2

/-- cohort_info.py lines 177-178: frequency-weighted entropy of a prefix. -/
noncomputable def prefix_freq_entropy (word_freqs : String → Option Nat)
    (words : List (String × Pron)) (p : Pron) : Except String ℝ :=
  entropy (normalize_counts ((prefix_freq_list word_freqs words p).map (fun n => (n : ℝ)))) 2

/-- cohort_info.py lines 180-181: unweighted surprisal of a prefix relative to
its parent `prefix[:-1]`, over the lengths of the two frequency lists. -/
noncomputable def prefix_uniform_surprisal (word_freqs : String → Option Nat)
    (words : List (String × Pron)) (p : Pron) : Except String ℝ :=
  surprisal ((prefix_freq_list word_freqs words p).length : ℝ)
    ((prefix_freq_list word_freqs words p.dropLast).length : ℝ) 2

/-- cohort_info.py lines 182-183: frequency-weighted surprisal of a prefix
relative to its parent, over the sums of the two frequency lists. -/
noncomputable def prefix_freq_surprisal (word_freqs : String → Option Nat)
    (words : List (String × Pron)) (p : Pron) : Except String ℝ :=
  surprisal (prefix_freq word_freqs words p : ℝ)
    (prefix_freq word_freqs words p.dropLast : ℝ) 2

/-- cohort_info.py lines 110-115, `_mean`: raises on the empty sequence, else
returns the arithmetic mean. -/
noncomputable def _mean (seq : List ℝ) : Except String ℝ :=
  if seq.length = 0 then Except.error "Cannot take mean of empty sequence"
  else Except.ok (seq.sum / (seq.length : ℝ))

/-- Python `min` over a list of floats: raises on the empty list. -/
noncomputable def list_min : List ℝ → Except String ℝ
  | [] => Except.error "min() arg is an empty sequence"
  | x :: xs => Except.ok (xs.foldl min x)

/-- Python `max` over a list of floats: raises on the empty list. -/
noncomputable def list_max : List ℝ → Except String ℝ
  | [] => Except.error "max() arg is an empty sequence"
  | x :: xs => Except.ok (xs.foldl max x)

/-- cohort_info.py line 260: `sur_uniform`, the list of unweighted surprisal
values the per-word summary scalars are computed from.  It ranges over all of
`prefixes(pron)`, the first position included. -/
noncomputable def word_sur_uniform (word_freqs : String → Option Nat)
    (words : List (String × Pron)) (pron : Pron) : Except String (List ℝ) :=
  mapE (prefix_uniform_surprisal word_freqs words) (prefixes pron)

/-- cohort_info.py line 261: `sur_freq`, the frequency-weighted analogue. -/
noncomputable def word_sur_freq (word_freqs : String → Option Nat)
    (words : List (String × Pron)) (pron : Pron) : Except String (List ℝ) :=
  mapE (prefix_freq_surprisal word_freqs words) (prefixes pron)

/-- cohort_info.py line 275, `_mean(sur_uniform)`. -/
noncomputable def sur_mean_uniform (word_freqs : String → Option Nat)
    (words : List (String × Pron)) (pron : Pron) : Except String ℝ :=
  (word_sur_uniform word_freqs words pron).bind _mean

/-- cohort_info.py line 275, `_mean(sur_freq)`. -/
noncomputable def sur_mean_freq (word_freqs : String → Option Nat)
    (words : List (String × Pron)) (pron : Pron) : Except String ℝ :=
  (word_sur_freq word_freqs words pron).bind _mean

/-- cohort_info.py line 276, `min(sur_uniform)`. -/
noncomputable def sur_min_uniform (word_freqs : String → Option Nat)
    (words : List (String × Pron)) (pron : Pron) : Except String ℝ :=
  (word_sur_uniform word_freqs words pron).bind list_min

/-- cohort_info.py line 276, `min(sur_freq)`. -/
noncomputable def sur_min_freq (word_freqs : String → Option Nat)
    (words : List (String × Pron)) (pron : Pron) : Except String ℝ :=
  (word_sur_freq word_freqs words pron).bind list_min

/-- cohort_info.py line 277, `max(sur_uniform)`. -/
noncomputable def sur_max_uniform (word_freqs : String → Option Nat)
    (words : List (String × Pron)) (pron : Pron) : Except String ℝ :=
  (word_sur_uniform word_freqs words pron).bind list_max

/-- cohort_info.py line 277, `max(sur_freq)`. -/
noncomputable def sur_max_freq (word_freqs : String → Option Nat)
    (words : List (String × Pron)) (pron : Pron) : Except String ℝ :=
  (word_sur_freq word_freqs words pron).bind list_max

/-- cohort_info.py lines 204-205: the zero-based uniqueness point of a
pronunciation, from the counts along its prefix chain. -/
def pron_uniqueness (words : List (String × Pron)) (pron : Pron) : Int :=
  uniqueness_point ((prefixes pron).map (prefix_count words))

/-- cohort_info.py line 266: the reported one-based uniqueness point,
`pron_uniqueness[pron] + 1`. -/
def word_unique (words : List (String × Pron)) (pron : Pron) : Int :=
  pron_uniqueness words pron + 1

/-- Modelled from the spec: the per-word mean unweighted surprisal over
positions 2..L only, the first position being excluded as undefined.  This
definition follows the spec's words and exists only for comparison with the
code's `sur_mean_uniform`. -/
noncomputable def spec_sur_mean_uniform (word_freqs : String → Option Nat)
    (words : List (String × Pron)) (pron : Pron) : Except String ℝ :=
  (mapE (prefix_uniform_surprisal word_freqs words) ((prefixes pron).drop 1)).bind _mean

/-- A frequency source with no entries: every word gets smoothed frequency 1. -/
def noFreqSource : String → Option Nat := fun _ => none

/-- Two words with distinct two-phoneme pronunciations sharing their first
phoneme. -/
def wordsAB : List (String × Pron) := [("u", ['a', 'b']), ("v", ['a', 'c'])]

/-- Two homophones: distinct words with identical pronunciations. -/
def wordsHom : List (String × Pron) := [("sea", ['s', 'i']), ("see", ['s', 'i'])]

/-- Two words with distinct single-phoneme pronunciations. -/
def wordsTwo : List (String × Pron) := [("x", ['a']), ("y", ['b'])]

/-! ### Structural helper lemmas -/

theorem mem_prefixes {x w : Pron} : x ∈ prefixes w ↔ x ≠ [] ∧ x <+: w := by
  constructor
  · intro hx
    simp only [prefixes, List.mem_map, List.mem_range] at hx
    obtain ⟨i, hi, rfl⟩ := hx
    refine ⟨?_, ⟨w.drop (i + 1), List.take_append_drop (i + 1) w⟩⟩
    intro h
    have hlen := congrArg List.length h
    simp only [List.length_take, List.length_nil] at hlen
    omega
  · rintro ⟨hne, t, rfl⟩
    simp only [prefixes, List.mem_map, List.mem_range]
    have h1 : 0 < x.length := List.length_pos.mpr hne
    refine ⟨x.length - 1, ?_, ?_⟩
    · simp only [List.length_append]
      omega
    · have h2 : x.length - 1 + 1 = x.length := by omega
      rw [h2]
      exact List.take_left x t

theorem prefixes_length (w : Pron) : (prefixes w).length = w.length := by
  simp [prefixes]

theorem mapE_cons {α β : Type} (f : α → Except String β) (x : α) (xs : List α) :
    mapE f (x :: xs) =
      (f x).bind (fun y => (mapE f xs).bind (fun ys => Except.ok (y :: ys))) := by
  rfl

theorem mapE_ok_length {α β : Type} (f : α → Except String β) :
    ∀ (l : List α) (l' : List β), mapE f l = Except.ok l' → l'.length = l.length := by
  intro l
  induction l with
  | nil =>
    intro l' h
    cases h
    rfl
  | cons x xs ih =>
    intro l' h
    rw [mapE_cons] at h
    cases hfx : f x with
    | error e => rw [hfx] at h; simp [Except.bind] at h
    | ok y =>
      rw [hfx] at h
      cases hxs : mapE f xs with
      | error e => rw [hxs] at h; simp [Except.bind] at h
      | ok ys =>
        rw [hxs] at h
        simp only [Except.bind, Except.ok.injEq] at h
        rw [← h]
        simp [ih ys hxs]

theorem mapE_append_ok {α β : Type} (f : α → Except String β) :
    ∀ (l₁ : List α) (v₁ : List β), mapE f l₁ = Except.ok v₁ →
    ∀ (l₂ : List α) (v₂ : List β), mapE f l₂ = Except.ok v₂ →
      mapE f (l₁ ++ l₂) = Except.ok (v₁ ++ v₂) := by
  intro l₁
  induction l₁ with
  | nil =>
    intro v₁ h₁ l₂ v₂ h₂
    cases h₁
    simpa using h₂
  | cons x xs ih =>
    intro v₁ h₁ l₂ v₂ h₂
    rw [mapE_cons] at h₁
    cases hfx : f x with
    | error e => rw [hfx] at h₁; simp [Except.bind] at h₁
    | ok y =>
      rw [hfx] at h₁
      cases hxs : mapE f xs with
      | error e => rw [hxs] at h₁; simp [Except.bind] at h₁
      | ok ys =>
        rw [hxs] at h₁
        simp only [Except.bind, Except.ok.injEq] at h₁
        rw [List.cons_append, mapE_cons, hfx]
        simp only [Except.bind]
        rw [ih ys hxs l₂ v₂ h₂]
        simp [← h₁]

theorem mapE_error_of_mem {α β : Type} (f : α → Except String β) :
    ∀ (l : List α) (x : α), x ∈ l → (∃ e, f x = Except.error e) →
      ∃ e, mapE f l = Except.error e := by
  intro l
  induction l with
  | nil =>
    intro x hx
    cases hx
  | cons y ys ih =>
    intro x hx ⟨e, he⟩
    rw [mapE_cons]
    cases hfy : f y with
    | error e' => exact ⟨e', rfl⟩
    | ok v =>
      rcases List.mem_cons.mp hx with hxy | hxs
      · subst hxy
        rw [hfy] at he
        cases he
      · obtain ⟨e', he'⟩ := ih x hxs ⟨e, he⟩
        rw [he']
        exact ⟨e', rfl⟩

theorem mapE_eq_map {α β : Type} (f : α → Except String β) (g : α → β) :
    ∀ l : List α, (∀ x ∈ l, f x = Except.ok (g x)) → mapE f l = Except.ok (l.map g) := by
  intro l
  induction l with
  | nil => intro _; rfl
  | cons x xs ih =>
    intro h
    rw [mapE_cons, h x (List.mem_cons_self x xs),
      ih (fun y hy => h y (List.mem_cons_of_mem x hy))]
    rfl

theorem mapE_error_exists {α β : Type} (f : α → Except String β) :
    ∀ (l : List α) (e : String), mapE f l = Except.error e →
      ∃ x ∈ l, f x = Except.error e := by
  intro l
  induction l with
  | nil =>
    intro e h
    cases h
  | cons x xs ih =>
    intro e h
    rw [mapE_cons] at h
    cases hfx : f x with
    | error e' =>
      rw [hfx] at h
      simp only [Except.bind] at h
      cases h
      exact ⟨x, List.mem_cons_self x xs, hfx⟩
    | ok y =>
      rw [hfx] at h
      cases hxs : mapE f xs with
      | error e' =>
        rw [hxs] at h
        simp only [Except.bind] at h
        cases h
        obtain ⟨z, hz, hfz⟩ := ih e hxs
        exact ⟨z, List.mem_cons_of_mem x hz, hfz⟩
      | ok ys =>
        rw [hxs] at h
        simp only [Except.bind] at h
        cases h

theorem membersOf_sublist_extension (prons : List Pron) (p : Pron) (c : Char) (hp : p ≠ []) :
    (membersOf prons (p ++ [c])).Sublist (membersOf prons p) := by
  apply List.monotone_filter_right
  intro w hw
  rw [decide_eq_true_eq] at hw ⊢
  rw [mem_prefixes] at hw ⊢
  exact ⟨hp, List.IsPrefix.trans ⟨[c], rfl⟩ hw.2⟩

theorem prefix_count_mono (words : List (String × Pron)) (p : Pron) (c : Char) :
    prefix_count words (p ++ [c]) ≤ prefix_count words p := by
  by_cases hp : p = []
  · subst hp
    simp only [prefix_count, List.nil_append]
    rw [if_pos trivial]
    calc (membersOf (pronsOf words) [c]).length
        ≤ (pronsOf words).length := (List.filter_sublist _).length_le
      _ ≤ (words.map Prod.snd).length := (List.dedup_sublist _).length_le
      _ = words.length := List.length_map _ _
  · rw [prefix_count, prefix_count, if_neg (by simp), if_neg hp]
    exact (membersOf_sublist_extension _ p c hp).length_le

theorem prefix_freq_mono (word_freqs : String → Option Nat) (words : List (String × Pron))
    (p : Pron) (c : Char) :
    prefix_freq word_freqs words (p ++ [c]) ≤ prefix_freq word_freqs words p := by
  by_cases hp : p = []
  · subst hp
    simp only [prefix_freq, prefix_freq_list, List.nil_append]
    rw [if_pos trivial]
    have h1 : ((membersOf (pronsOf words) [c]).map (pron_freqs word_freqs words)).Sublist
        ((pronsOf words).map (pron_freqs word_freqs words)) :=
      List.Sublist.map _ (List.filter_sublist _)
    have h2 : ((pronsOf words).map (pron_freqs word_freqs words)).Sublist
        ((words.map Prod.snd).map (pron_freqs word_freqs words)) :=
      List.Sublist.map _ (List.dedup_sublist _)
    have h3 : (words.map Prod.snd).map (pron_freqs word_freqs words)
        = words.map (fun wp => pron_freqs word_freqs words wp.2) := by
      rw [List.map_map]
      rfl
    calc ((membersOf (pronsOf words) [c]).map (pron_freqs word_freqs words)).sum
        ≤ ((pronsOf words).map (pron_freqs word_freqs words)).sum :=
          h1.sum_le_sum (fun a _ => Nat.zero_le a)
      _ ≤ ((words.map Prod.snd).map (pron_freqs word_freqs words)).sum :=
          h2.sum_le_sum (fun a _ => Nat.zero_le a)
      _ = (words.map (fun wp => pron_freqs word_freqs words wp.2)).sum := by rw [h3]
  · rw [prefix_freq, prefix_freq, prefix_freq_list, prefix_freq_list,
      if_neg (by simp), if_neg hp]
    exact (List.Sublist.map _ (membersOf_sublist_extension _ p c hp)).sum_le_sum
      (fun a _ => Nat.zero_le a)

theorem one_le_smoothed_freq (word_freqs : String → Option Nat) (word : String) :
    1 ≤ smoothed_freq word_freqs word := by
  unfold smoothed_freq
  cases word_freqs word with
  | none => exact le_refl 1
  | some f =>
    dsimp only
    split <;> omega

theorem one_le_pron_freqs (word_freqs : String → Option Nat) (words : List (String × Pron))
    (q : Pron) (hq : q ∈ words.map Prod.snd) : 1 ≤ pron_freqs word_freqs words q := by
  rw [List.mem_map] at hq
  obtain ⟨wp, hwp, hq⟩ := hq
  have hmem : wp ∈ words.filter (fun x => decide (x.2 = q)) :=
    List.mem_filter.mpr ⟨hwp, by simp [hq]⟩
  have hmem2 : smoothed_freq word_freqs wp.1 ∈
      (words.filter (fun x => decide (x.2 = q))).map (fun x => smoothed_freq word_freqs x.1) :=
    List.mem_map_of_mem _ hmem
  calc 1 ≤ smoothed_freq word_freqs wp.1 := one_le_smoothed_freq _ _
    _ ≤ _ := List.single_le_sum (fun x _ => Nat.zero_le x) _ hmem2

theorem surprisal_self (c base : ℝ) : surprisal c c base = Except.ok 0 := by
  simp [surprisal]

theorem pylog_pos {x : ℝ} (hx : 0 < x) (base : ℝ) :
    pylog x base = Except.ok (Real.logb base x) := by
  rw [pylog, if_neg (not_le.mpr hx)]

theorem pylog_nonpos {x : ℝ} (hx : x ≤ 0) (base : ℝ) :
    pylog x base = Except.error "math domain error" := by
  rw [pylog, if_pos hx]

theorem surprisal_of_lt {e c : ℝ} (he : 0 < e) (h : e < c) (base : ℝ) :
    surprisal e c base = Except.ok (-(Real.logb base e - Real.logb base c)) := by
  rw [surprisal, if_neg (ne_of_lt h), if_neg (not_lt.mpr (le_of_lt h)),
    pylog_pos he base, pylog_pos (lt_trans he h) base]
  rfl

theorem surprisal_domain_error {e c : ℝ} (he : e ≤ 0) (h : e < c) (base : ℝ) :
    surprisal e c base = Except.error "math domain error" := by
  rw [surprisal, if_neg (ne_of_lt h), if_neg (not_lt.mpr (le_of_lt h)),
    pylog_nonpos he base]
  rfl

theorem surprisal_eq_of_le {e c : ℝ} (he : 0 < e) (h : e ≤ c) (base : ℝ) :
    surprisal e c base = Except.ok (-(Real.logb base e - Real.logb base c)) := by
  rcases eq_or_lt_of_le h with heq | hlt
  · subst heq
    rw [surprisal_self]
    norm_num
  · exact surprisal_of_lt he hlt base

theorem entropy_ok {probs : List ℝ} {base : ℝ}
    (hsum : 1 - PROB_TOLERANCE < probs.sum ∧ probs.sum ≤ 1 + PROB_TOLERANCE)
    (hlen : probs.length ≠ 1) (hpos : ∀ p ∈ probs, 0 < p) :
    entropy probs base =
      Except.ok (-(probs.map (fun prob => prob * Real.logb base prob)).sum) := by
  rw [entropy, if_neg (not_not_intro hsum), if_neg hlen,
    mapE_eq_map _ (fun prob => prob * Real.logb base prob) probs
      (fun x hx => by rw [pylog_pos (hpos x hx) base]; rfl)]
  rfl

theorem entropy_single {probs : List ℝ} {base : ℝ}
    (hsum : 1 - PROB_TOLERANCE < probs.sum ∧ probs.sum ≤ 1 + PROB_TOLERANCE)
    (hlen : probs.length = 1) :
    entropy probs base = Except.ok 0 := by
  rw [entropy, if_neg (not_not_intro hsum), if_pos hlen]

theorem normalize_replicate_one (n : Nat) :
    normalize_counts (List.replicate n (1 : ℝ)) = List.replicate n (1 / (n : ℝ)) := by
  unfold normalize_counts
  rw [List.sum_replicate, nsmul_eq_mul, mul_one, List.map_replicate]

theorem sum_replicate_inv (n : Nat) (hn : 0 < n) :
    (List.replicate n (1 / (n : ℝ))).sum = 1 := by
  rw [List.sum_replicate, nsmul_eq_mul]
  have h : (n : ℝ) ≠ 0 := Nat.cast_ne_zero.mpr (Nat.pos_iff_ne_zero.mp hn)
  field_simp

theorem tolerance_of_sum_one {probs : List ℝ} (h : probs.sum = 1) :
    1 - PROB_TOLERANCE < probs.sum ∧ probs.sum ≤ 1 + PROB_TOLERANCE := by
  rw [h]
  norm_num [PROB_TOLERANCE]

theorem prefix_uniform_entropy_eval (words : List (String × Pron)) (p : Pron)
    (hn : 0 < prefix_count words p) :
    prefix_uniform_entropy words p =
      Except.ok (Real.logb 2 (prefix_count words p : ℝ)) := by
  rw [prefix_uniform_entropy, normalize_replicate_one]
  have htol := tolerance_of_sum_one (sum_replicate_inv (prefix_count words p) hn)
  rcases Nat.lt_or_ge (prefix_count words p) 2 with h2 | h2
  · have hn1 : prefix_count words p = 1 := by omega
    rw [entropy_single htol (by rw [List.length_replicate, hn1]), hn1]
    rw [Nat.cast_one, Real.logb_one]
  · have hne : (List.replicate (prefix_count words p) (1 / (prefix_count words p : ℝ))).length ≠ 1 := by
      rw [List.length_replicate]
      omega
    have hpos : ∀ q ∈ List.replicate (prefix_count words p) (1 / (prefix_count words p : ℝ)),
        0 < q := by
      intro q hq
      rw [List.eq_of_mem_replicate hq]
      have hc : (0 : ℝ) < (prefix_count words p : ℝ) := by exact_mod_cast hn
      exact div_pos one_pos hc
    rw [entropy_ok htol hne hpos, List.map_replicate, List.sum_replicate, nsmul_eq_mul]
    have hcast : (prefix_count words p : ℝ) ≠ 0 := Nat.cast_ne_zero.mpr (by omega)
    congr 1
    rw [one_div, Real.logb_inv]
    field_simp

theorem prefixes_append_singleton (Q : Pron) (c : Char) :
    prefixes (Q ++ [c]) = prefixes Q ++ [Q ++ [c]] := by
  unfold prefixes
  rw [List.length_append, List.length_singleton]
  have hr : List.range (Q.length + 1) = List.range Q.length ++ [Q.length] :=
    List.range_succ Q.length
  rw [hr, List.map_append]
  congr 1
  · apply List.map_congr_left
    intro i hi
    rw [List.mem_range] at hi
    exact List.take_append_of_le_length (by omega)
  · simp only [List.map_cons, List.map_nil]
    congr 1
    have hl : Q.length + 1 = (Q ++ [c]).length := by
      rw [List.length_append, List.length_singleton]
    rw [hl, List.take_length]

theorem surprisal_chain (f : Pron → Nat) (hmono : ∀ q c, f (q ++ [c]) ≤ f q) :
    ∀ P : Pron, 0 < f P → ∃ vs : List ℝ,
      mapE (fun p => surprisal (f p : ℝ) (f p.dropLast : ℝ) 2) (prefixes P) = Except.ok vs ∧
        vs.sum = -(Real.logb 2 (f P : ℝ) - Real.logb 2 (f ([] : Pron) : ℝ)) := by
  intro P
  induction P using List.reverseRecOn with
  | nil => exact fun _ => ⟨[], rfl, by simp⟩
  | append_singleton Q c ih =>
    intro hP
    have hQ : 0 < f Q := lt_of_lt_of_le hP (hmono Q c)
    obtain ⟨vs, hvs, hsum⟩ := ih hQ
    have hstep : surprisal (f (Q ++ [c]) : ℝ) (f (Q ++ [c]).dropLast : ℝ) 2 =
        Except.ok (-(Real.logb 2 (f (Q ++ [c]) : ℝ) - Real.logb 2 (f Q : ℝ))) := by
      rw [List.dropLast_concat]
      exact surprisal_eq_of_le (by exact_mod_cast hP) (Nat.cast_le.mpr (hmono Q c)) 2
    have hsingle : mapE (fun p => surprisal (f p : ℝ) (f p.dropLast : ℝ) 2) [Q ++ [c]] =
        Except.ok [-(Real.logb 2 (f (Q ++ [c]) : ℝ) - Real.logb 2 (f Q : ℝ))] := by
      rw [mapE_cons, hstep]
      rfl
    refine ⟨vs ++ [-(Real.logb 2 (f (Q ++ [c]) : ℝ) - Real.logb 2 (f Q : ℝ))], ?_, ?_⟩
    · rw [prefixes_append_singleton]
      exact mapE_append_ok _ _ _ hvs _ _ hsingle
    · rw [List.sum_append, hsum, List.sum_singleton]
      ring

theorem one_le_prefix_freq_self (word_freqs : String → Option Nat)
    (words : List (String × Pron)) (P : Pron) (hP : P ∈ pronsOf words) (hne : P ≠ []) :
    1 ≤ prefix_freq word_freqs words P := by
  have hmemP : P ∈ membersOf (pronsOf words) P := by
    rw [membersOf, List.mem_filter]
    exact ⟨hP, decide_eq_true (mem_prefixes.mpr ⟨hne, List.prefix_rfl⟩)⟩
  have hPmap : P ∈ words.map Prod.snd := List.dedup_subset _ hP
  have h1 : 1 ≤ pron_freqs word_freqs words P := one_le_pron_freqs _ _ _ hPmap
  have hm : pron_freqs word_freqs words P ∈
      (membersOf (pronsOf words) P).map (pron_freqs word_freqs words) :=
    List.mem_map_of_mem _ hmemP
  rw [prefix_freq, prefix_freq_list, if_neg hne]
  calc 1 ≤ pron_freqs word_freqs words P := h1
    _ ≤ _ := List.single_le_sum (fun x _ => Nat.zero_le x) _ hm

theorem one_le_prefix_freq_nil (word_freqs : String → Option Nat)
    (words : List (String × Pron)) (hw : words ≠ []) :
    1 ≤ prefix_freq word_freqs words ([] : Pron) := by
  cases words with
  | nil => exact absurd rfl hw
  | cons wp rest =>
    rw [prefix_freq, prefix_freq_list, if_pos rfl]
    have h1 : 1 ≤ pron_freqs word_freqs (wp :: rest) wp.2 :=
      one_le_pron_freqs _ _ _ (List.mem_map_of_mem _ (List.mem_cons_self wp rest))
    have hmem : pron_freqs word_freqs (wp :: rest) wp.2 ∈
        (wp :: rest).map (fun x => pron_freqs word_freqs (wp :: rest) x.2) :=
      List.mem_map_of_mem _ (List.mem_cons_self wp rest)
    calc 1 ≤ pron_freqs word_freqs (wp :: rest) wp.2 := h1
      _ ≤ _ := List.single_le_sum (fun x _ => Nat.zero_le x) _ hmem

/-! ### Claim theorems -/

/-- C5 counterexample: at event -2 and context -1 the event quantity is
strictly below the context quantity, yet Python's math.log raises its domain
ValueError on the negative argument: the call raises although the event is
not greater than the context, and it does not return the claimed formula. -/
theorem C5_counterexample :
    ((-2 : ℝ) < -1) ∧
    surprisal (-2) (-1) 2 = Except.error "math domain error" ∧
    surprisal (-2) (-1) 2 ≠
      Except.ok (-(Real.logb 2 (-2) - Real.logb 2 (-1))) := by
  have h := @surprisal_domain_error (-2) (-1) (by norm_num) (by norm_num) 2
  refine ⟨by norm_num, h, ?_⟩
  rw [h]
  exact fun hh => Except.noConfusion hh

/-- C5 amended: `surprisal` returns exactly 0.0 when the event quantity
equals the context quantity; it signals the InvalidConditionalProbability
ValueError exactly when the event quantity is strictly greater than the
context quantity; for a positive event quantity strictly below the context it
returns `-(log2(event) - log2(context))`; a non-positive event quantity
strictly below the context raises math.log's domain ValueError instead. -/
theorem C5_surprisal_cases (event_prob context_prob : ℝ) :
    (event_prob = context_prob → surprisal event_prob context_prob 2 = Except.ok 0) ∧
    (surprisal event_prob context_prob 2 =
        Except.error "Improper conditional probability (event_prob > context_prob)" ↔
      context_prob < event_prob) ∧
    (0 < event_prob → event_prob < context_prob →
      surprisal event_prob context_prob 2 =
        Except.ok (-(Real.logb 2 event_prob - Real.logb 2 context_prob))) ∧
    (event_prob ≤ 0 → event_prob < context_prob →
      surprisal event_prob context_prob 2 = Except.error "math domain error") := by
  refine ⟨?_, ⟨?_, ?_⟩, ?_, ?_⟩
  · intro h
    subst h
    exact surprisal_self _ _
  · intro he
    rcases lt_trichotomy event_prob context_prob with h | h | h
    · by_cases hp : 0 < event_prob
      · rw [surprisal_of_lt hp h 2] at he
        exact Except.noConfusion he
      · rw [surprisal_domain_error (not_lt.mp hp) h 2] at he
        injection he with hmsg
        exact absurd hmsg (by decide)
    · subst h
      rw [surprisal_self] at he
      exact Except.noConfusion he
    · exact h
  · intro hgt
    rw [surprisal, if_neg (ne_of_gt hgt), if_pos hgt]
  · intro hp hlt
    exact surprisal_of_lt hp hlt 2
  · intro hp hlt
    exact surprisal_domain_error hp hlt 2

/-- Witness for C5 (amended), at event quantity 1 and context quantity 2. -/
theorem C5_surprisal_cases_witness :
    (0 : ℝ) < 1 ∧ (1 : ℝ) < 2 ∧
    surprisal 1 2 2 = Except.ok (-(Real.logb 2 1 - Real.logb 2 2)) :=
  ⟨by norm_num, by norm_num,
    (C5_surprisal_cases 1 2).2.2.1 (by norm_num) (by norm_num)⟩

theorem entropy_term_error {x base : ℝ} {e : String}
    (h : (pylog x base).map (fun l => x * l) = Except.error e) :
    e = "math domain error" := by
  by_cases hx : x ≤ 0
  · rw [pylog_nonpos hx base] at h
    simp only [Except.map] at h
    injection h with h'
    exact h'.symm
  · rw [pylog_pos (not_le.mp hx) base] at h
    simp only [Except.map] at h
    exact Except.noConfusion h

/-- C10 counterexample: the probability list [1.0, 0.0] sums to 1.0, inside
the tolerance interval, yet entropy raises math.log's domain ValueError on
the zero probability instead of returning a value. -/
theorem C10_counterexample :
    (1 - PROB_TOLERANCE < ([(1 : ℝ), 0]).sum ∧
      ([(1 : ℝ), 0]).sum ≤ 1 + PROB_TOLERANCE) ∧
    entropy [(1 : ℝ), 0] 2 = Except.error "math domain error" := by
  have htol : 1 - PROB_TOLERANCE < ([(1 : ℝ), 0]).sum ∧
      ([(1 : ℝ), 0]).sum ≤ 1 + PROB_TOLERANCE := by
    norm_num [PROB_TOLERANCE]
  refine ⟨htol, ?_⟩
  have hmap : mapE (fun prob => (pylog prob (2 : ℝ)).map (fun l => prob * l))
      [(1 : ℝ), 0] = Except.error "math domain error" := by
    rw [mapE_cons]
    have h1 : (pylog (1 : ℝ) 2).map (fun l => (1 : ℝ) * l) =
        Except.ok ((1 : ℝ) * Real.logb 2 1) := by
      rw [pylog_pos one_pos 2]
      rfl
    have h0 : (pylog (0 : ℝ) 2).map (fun l => (0 : ℝ) * l) =
        Except.error "math domain error" := by
      rw [pylog_nonpos (le_refl (0 : ℝ)) 2]
      rfl
    rw [h1, mapE_cons, h0]
    rfl
  rw [entropy, if_neg (not_not_intro htol), if_neg (by norm_num), hmap]
  rfl

/-- C10 amended: `entropy` raises ValueError("Sum of probabilities is not
1.0") exactly when the probability sum lies outside the half-open interval
(1 - PROB_TOLERANCE, 1 + PROB_TOLERANCE]; for a sum inside the interval it
returns a value without raising provided every probability is positive (as
holds for the normalized positive counts its callers supply); a non-positive
probability in a multi-element list raises math.log's domain ValueError
instead. -/
theorem C10_entropy_tolerance (probs : List ℝ) (base : ℝ) :
    (entropy probs base = Except.error "Sum of probabilities is not 1.0" ↔
      ¬(1 - PROB_TOLERANCE < probs.sum ∧ probs.sum ≤ 1 + PROB_TOLERANCE)) ∧
    ((1 - PROB_TOLERANCE < probs.sum ∧ probs.sum ≤ 1 + PROB_TOLERANCE) →
      (∀ p ∈ probs, 0 < p) → ∃ v, entropy probs base = Except.ok v) := by
  constructor
  · constructor
    · intro he
      by_contra hnot
      by_cases hlen : probs.length = 1
      · rw [entropy_single hnot hlen] at he
        exact Except.noConfusion he
      · rw [entropy, if_neg (not_not_intro hnot), if_neg hlen] at he
        cases hmap : mapE (fun prob => (pylog prob base).map (fun l => prob * l)) probs with
        | ok terms =>
          rw [hmap] at he
          have he2 : (Except.ok (-terms.sum) : Except String ℝ) =
              Except.error "Sum of probabilities is not 1.0" := he
          exact Except.noConfusion he2
        | error e' =>
          rw [hmap] at he
          have he2 : (Except.error e' : Except String ℝ) =
              Except.error "Sum of probabilities is not 1.0" := he
          injection he2 with hm
          obtain ⟨x, _, hfx⟩ := mapE_error_exists _ probs e' hmap
          rw [entropy_term_error hfx] at hm
          exact absurd hm (by decide)
    · intro h
      rw [entropy, if_pos h]
  · intro h hpos
    by_cases hlen : probs.length = 1
    · exact ⟨0, entropy_single h hlen⟩
    · exact ⟨_, entropy_ok h hlen hpos⟩

/-- Witness for C10 (amended), at the singleton probability list [1.0]. -/
theorem C10_entropy_tolerance_witness :
    (1 - PROB_TOLERANCE < ([(1 : ℝ)]).sum ∧ ([(1 : ℝ)]).sum ≤ 1 + PROB_TOLERANCE) ∧
    (∀ p ∈ ([(1 : ℝ)]), 0 < p) ∧
    ∃ v, entropy [(1 : ℝ)] 2 = Except.ok v := by
  have h1 : 1 - PROB_TOLERANCE < ([(1 : ℝ)]).sum ∧
      ([(1 : ℝ)]).sum ≤ 1 + PROB_TOLERANCE := by
    norm_num [PROB_TOLERANCE]
  have h2 : ∀ p ∈ ([(1 : ℝ)]), 0 < p := by
    intro p hp
    rw [List.mem_singleton.mp hp]
    norm_num
  exact ⟨h1, h2, (C10_entropy_tolerance [(1 : ℝ)] 2).2 h1 h2⟩

/-- C7: a word contributes smoothed frequency rawFrequency + 1 to its
pronunciation's aggregate when a raw frequency is present and positive, and 1
otherwise; in the latter case the `nofreq_count` diagnostic grows by exactly
one for that word. -/
theorem C7_smoothing (word_freqs : String → Option Nat) (words : List (String × Pron))
    (word : String) (pron : Pron) :
    (∀ f : Nat, word_freqs word = some f → 0 < f →
      smoothed_freq word_freqs word = f + 1 ∧
      pron_freqs word_freqs (words ++ [(word, pron)]) pron =
        pron_freqs word_freqs words pron + (f + 1) ∧
      nofreq_count word_freqs (words ++ [(word, pron)]) = nofreq_count word_freqs words) ∧
    (word_freqs word = none ∨ word_freqs word = some 0 →
      smoothed_freq word_freqs word = 1 ∧
      pron_freqs word_freqs (words ++ [(word, pron)]) pron =
        pron_freqs word_freqs words pron + 1 ∧
      nofreq_count word_freqs (words ++ [(word, pron)]) = nofreq_count word_freqs words + 1) := by
  constructor
  · intro f hf hpos
    have hs : smoothed_freq word_freqs word = f + 1 := by
      rw [smoothed_freq, hf]
      simp [Nat.pos_iff_ne_zero.mp hpos]
    have hh : has_freq word_freqs word = true := by
      rw [has_freq, hf]
      simp [Nat.pos_iff_ne_zero.mp hpos]
    refine ⟨hs, ?_, ?_⟩
    · rw [pron_freqs, pron_freqs, List.filter_append, List.map_append, List.sum_append]
      simp [hs]
    · rw [nofreq_count, nofreq_count, List.filter_append]
      simp [hh]
  · intro h
    have hs : smoothed_freq word_freqs word = 1 := by
      rcases h with h | h <;> rw [smoothed_freq, h] <;> simp
    have hh : has_freq word_freqs word = false := by
      rcases h with h | h <;> rw [has_freq, h] <;> simp
    refine ⟨hs, ?_, ?_⟩
    · rw [pron_freqs, pron_freqs, List.filter_append, List.map_append, List.sum_append]
      simp [hs]
    · rw [nofreq_count, nofreq_count, List.filter_append]
      simp [hh]

/-- Witness for C7: a word absent from the frequency source. -/
theorem C7_smoothing_witness :
    (noFreqSource "w" = none ∨ noFreqSource "w" = some 0) ∧
    (smoothed_freq noFreqSource "w" = 1 ∧
      pron_freqs noFreqSource ([] ++ [("w", ['a'])]) ['a'] =
        pron_freqs noFreqSource [] ['a'] + 1 ∧
      nofreq_count noFreqSource ([] ++ [("w", ['a'])]) = nofreq_count noFreqSource [] + 1) :=
  ⟨Or.inl rfl, (C7_smoothing noFreqSource [] "w" ['a']).2 (Or.inl rfl)⟩

/-- C2 counterexample: with two homophone words ("sea" and "see", both
pronounced ['s','i']), the count stored for the empty prefix is 2 — the number
of words — while the number of distinct pronunciations is 1. -/
theorem C2_counterexample :
    prefix_count wordsHom ([] : Pron) = 2 ∧ (pronsOf wordsHom).length = 1 ∧
      prefix_count wordsHom ([] : Pron) ≠ (pronsOf wordsHom).length := by
  refine ⟨?_, ?_, ?_⟩ <;> decide

/-- C2 amended: the count stored for the empty prefix equals the number of
words in the input mapping (`len(word_prons)`); it equals the number of
distinct pronunciations exactly when no two words are homophones (the list of
pronunciation values has no duplicate). -/
theorem C2_empty_prefix_count (words : List (String × Pron)) :
    prefix_count words ([] : Pron) = words.length ∧
    ((words.map Prod.snd).Nodup ↔
      prefix_count words ([] : Pron) = (pronsOf words).length) := by
  have hc : prefix_count words ([] : Pron) = words.length := by
    rw [prefix_count, if_pos rfl]
  refine ⟨hc, ?_, ?_⟩
  · intro h
    rw [prefix_count, if_pos rfl, pronsOf, List.dedup_eq_self.mpr h, List.length_map]
  · intro h
    rw [hc, pronsOf] at h
    have hlen : ((words.map Prod.snd).dedup).length = (words.map Prod.snd).length := by
      rw [← h, List.length_map]
    have heq : (words.map Prod.snd).dedup = words.map Prod.snd :=
      (List.dedup_sublist (words.map Prod.snd)).eq_of_length hlen
    exact List.dedup_eq_self.mp heq

/-- Witness for C2 (amended) on a homophone-free input. -/
theorem C2_empty_prefix_count_witness :
    (wordsTwo.map Prod.snd).Nodup ∧
      prefix_count wordsTwo ([] : Pron) = (pronsOf wordsTwo).length :=
  ⟨by decide, (C2_empty_prefix_count wordsTwo).2.mp (by decide)⟩

/-- C3 counterexample: with the well-formed pronunciation ['a'] and the
vowel-free pronunciation ['z'], the onset-nucleus computation raises and the
whole aggregation yields an error — no per-word output at all is produced —
rather than an output that merely excludes the malformed word. -/
theorem C3_counterexample :
    pron_onsetnucs [['a'], ['z']] =
      Except.error "Could not correctly compute onset length in z." ∧
    pron_onsetnucs [['a']] = Except.ok [(['a'], ['a'])] ∧
    pron_onsetnucs [['a'], ['z']] ≠ Except.ok [(['a'], ['a'])] := by
  refine ⟨rfl, rfl, ?_⟩
  intro h
  rw [show pron_onsetnucs [['a'], ['z']] =
      Except.error "Could not correctly compute onset length in z." from rfl] at h
  cases h

/-- C3 amended: when any pronunciation in the index consists only of
non-vowel symbols, the ValueError raised by the onset-nucleus computation
propagates out of the unguarded dict comprehension: the entire aggregation
(and with it the run) aborts with an error, instead of skipping that word and
continuing with the others. -/
theorem C3_onsetnuc_error_aborts (prons : List Pron) (p : Pron) (hp : p ∈ prons)
    (hvf : ∀ x ∈ p, VOWELS.contains x = false) :
    ∃ e, pron_onsetnucs prons = Except.error e := by
  apply mapE_error_of_mem _ prons p hp
  have htw : p.takeWhile (fun x => !(VOWELS.contains x)) = p :=
    List.takeWhile_eq_self_iff.mpr (by
      intro x hx
      rw [hvf x hx]
      rfl)
  have herr : _get_onsetnuc p =
      Except.error ("Could not correctly compute onset length in " ++ String.mk p ++ ".") := by
    unfold _get_onsetnuc
    simp only [htw]
    rw [List.getElem?_eq_none (le_refl p.length)]
  refine ⟨"Could not correctly compute onset length in " ++ String.mk p ++ ".", ?_⟩
  rw [herr]
  rfl

/-- Witness for C3 (amended), at the two-pronunciation index of the
counterexample. -/
theorem C3_onsetnuc_error_aborts_witness :
    (['z'] ∈ ([[ 'a'], ['z']] : List Pron)) ∧
    (∀ x ∈ (['z'] : Pron), VOWELS.contains x = false) ∧
    ∃ e, pron_onsetnucs [['a'], ['z']] = Except.error e :=
  ⟨by decide, by decide, C3_onsetnuc_error_aborts [['a'], ['z']] ['z'] (by decide) (by decide)⟩

/-- C6: for the prefix structure built from any input, and for every prefix p
and single-symbol extension c such that p ++ [c] is also a prefix, the count
and the aggregated frequency are monotonically non-increasing, including at
the boundary p = "" (the special empty prefix versus a single-phoneme
prefix). -/
theorem C6_monotonicity (word_freqs : String → Option Nat) (words : List (String × Pron))
    (p : Pron) (c : Char)
    (_hp : p = [] ∨ ∃ w ∈ pronsOf words, p ∈ prefixes w)
    (_hpc : ∃ w ∈ pronsOf words, (p ++ [c]) ∈ prefixes w) :
    prefix_count words (p ++ [c]) ≤ prefix_count words p ∧
    prefix_freq word_freqs words (p ++ [c]) ≤ prefix_freq word_freqs words p :=
  ⟨prefix_count_mono words p c, prefix_freq_mono word_freqs words p c⟩

/-- Witness for C6, at the empty-prefix boundary of the two-word index. -/
theorem C6_monotonicity_witness :
    (([] : Pron) = [] ∨ ∃ w ∈ pronsOf wordsAB, ([] : Pron) ∈ prefixes w) ∧
    (∃ w ∈ pronsOf wordsAB, (([] : Pron) ++ ['a']) ∈ prefixes w) ∧
    (prefix_count wordsAB (([] : Pron) ++ ['a']) ≤ prefix_count wordsAB ([] : Pron) ∧
      prefix_freq noFreqSource wordsAB (([] : Pron) ++ ['a']) ≤
        prefix_freq noFreqSource wordsAB ([] : Pron)) :=
  ⟨Or.inl rfl, by decide,
    C6_monotonicity noFreqSource wordsAB [] 'a' (Or.inl rfl) (by decide)⟩

/-- C9 amended: for every pronunciation P in the index, the sum of the
frequency-weighted surprisal values along P's full prefix chain (positions 1
through L, position 1 being relative to the special empty prefix) equals
-log2(freqOf(P) / freqOf("")) by telescoping — without the extra
"plus the frequency-weighted entropy at the empty prefix" term of the original
claim. -/
theorem C9_freq_surprisal_telescopes (word_freqs : String → Option Nat)
    (words : List (String × Pron)) (P : Pron)
    (hP : P ∈ pronsOf words) (hne : P ≠ []) :
    ∃ vs : List ℝ, word_sur_freq word_freqs words P = Except.ok vs ∧
      vs.sum = -Real.logb 2 ((prefix_freq word_freqs words P : ℝ) /
        (prefix_freq word_freqs words ([] : Pron) : ℝ)) := by
  obtain ⟨vs, hvs, hsum⟩ :=
    surprisal_chain (prefix_freq word_freqs words) (prefix_freq_mono word_freqs words) P
      (by have := one_le_prefix_freq_self word_freqs words P hP hne; omega)
  refine ⟨vs, hvs, ?_⟩
  have hw : words ≠ [] := by
    intro h
    subst h
    simp [pronsOf] at hP
  have h1 : (1 : ℝ) ≤ (prefix_freq word_freqs words P : ℝ) := by
    exact_mod_cast one_le_prefix_freq_self word_freqs words P hP hne
  have h2 : (1 : ℝ) ≤ (prefix_freq word_freqs words ([] : Pron) : ℝ) := by
    exact_mod_cast one_le_prefix_freq_nil word_freqs words hw
  rw [hsum, Real.logb_div (by linarith) (by linarith)]

/-- Witness for C9 (amended), at the single-phoneme pronunciation ['a'] of the
two-word index. -/
theorem C9_freq_surprisal_telescopes_witness :
    (['a'] ∈ pronsOf wordsTwo) ∧ (['a'] ≠ ([] : Pron)) ∧
    ∃ vs : List ℝ, word_sur_freq noFreqSource wordsTwo ['a'] = Except.ok vs ∧
      vs.sum = -Real.logb 2 ((prefix_freq noFreqSource wordsTwo ['a'] : ℝ) /
        (prefix_freq noFreqSource wordsTwo ([] : Pron) : ℝ)) :=
  ⟨by decide, by decide,
    C9_freq_surprisal_telescopes noFreqSource wordsTwo ['a'] (by decide) (by decide)⟩

/-- C8: for every prefix with at least one member, the unweighted entropy is a
defined value v with v ≥ 0, and v = 0 exactly when the prefix count is 1;
moreover the entropy operation on any single-outcome distribution returns the
exact value 0 (the dedicated length-one branch, avoiding -0.0). -/
theorem C8_uniform_entropy (words : List (String × Pron)) (p : Pron)
    (hn : 1 ≤ prefix_count words p) :
    (∀ c : ℝ, 0 < c → entropy (normalize_counts [c]) 2 = Except.ok 0) ∧
    ∃ v : ℝ, prefix_uniform_entropy words p = Except.ok v ∧ 0 ≤ v ∧
      (v = 0 ↔ prefix_count words p = 1) := by
  constructor
  · intro c hc
    have hnorm : normalize_counts [c] = [1] := by
      unfold normalize_counts
      simp [div_self (ne_of_gt hc)]
    rw [hnorm]
    exact entropy_single (tolerance_of_sum_one (by simp)) (by simp)
  · refine ⟨Real.logb 2 (prefix_count words p : ℝ),
      prefix_uniform_entropy_eval words p hn, ?_, ?_⟩
    · exact Real.logb_nonneg one_lt_two (by exact_mod_cast hn)
    · constructor
      · intro h0
        by_contra hne1
        have h2 : 2 ≤ prefix_count words p := by omega
        have hpos : (0 : ℝ) < Real.logb 2 (prefix_count words p : ℝ) :=
          Real.logb_pos one_lt_two (by exact_mod_cast h2)
        linarith
      · intro h1
        rw [h1]
        simp

/-- Witness for C8, at the single-member prefix ['a'] of the two-word index. -/
theorem C8_uniform_entropy_witness :
    1 ≤ prefix_count wordsTwo ['a'] ∧
    ((∀ c : ℝ, 0 < c → entropy (normalize_counts [c]) 2 = Except.ok 0) ∧
      ∃ v : ℝ, prefix_uniform_entropy wordsTwo ['a'] = Except.ok v ∧ 0 ≤ v ∧
        (v = 0 ↔ prefix_count wordsTwo ['a'] = 1)) :=
  ⟨by decide, C8_uniform_entropy wordsTwo ['a'] (by decide)⟩

theorem indexOf_minimal (l : List Nat) :
    ∀ j : Nat, j < l.indexOf 1 → l[j]? ≠ some 1 := by
  induction l with
  | nil =>
    intro j hj
    rw [List.indexOf_nil] at hj
    omega
  | cons x xs ih =>
    intro j hj
    by_cases hx : x = 1
    · rw [List.indexOf_cons_eq _ hx] at hj
      omega
    · rw [List.indexOf_cons_ne _ hx] at hj
      cases j with
      | zero => simpa using hx
      | succ k =>
        have hk := ih k (by omega)
        simpa using hk

theorem prefixes_getElem? (w : Pron) (j : Nat) (h : j < w.length) :
    (prefixes w)[j]? = some (w.take (j + 1)) := by
  unfold prefixes
  rw [List.getElem?_map, List.getElem?_range h]
  rfl

/-- C4: for a non-empty pronunciation P of length L, the reported one-based
uniqueness point u satisfies 1 ≤ u ≤ L, is minimal among positions whose
prefix count is 1, equals the count-1 position when one exists and L
otherwise, and satisfies countOf(P[:u]) = 1 unless u = L; on an empty
sequence of prefix counts the zero-based uniqueness point is -1. -/
theorem C4_uniqueness_point (words : List (String × Pron)) (pron : Pron) (hne : pron ≠ []) :
    (uniqueness_point ([] : List Nat) = -1) ∧
    (1 ≤ word_unique words pron ∧ word_unique words pron ≤ (pron.length : Int)) ∧
    (∀ j : Nat, 1 ≤ j → (j : Int) < word_unique words pron →
      prefix_count words (pron.take j) ≠ 1) ∧
    ((∃ j : Nat, 1 ≤ j ∧ j ≤ pron.length ∧ prefix_count words (pron.take j) = 1) →
      prefix_count words (pron.take (word_unique words pron).toNat) = 1) ∧
    ((∀ j : Nat, 1 ≤ j → j ≤ pron.length → prefix_count words (pron.take j) ≠ 1) →
      word_unique words pron = (pron.length : Int)) ∧
    (word_unique words pron ≠ (pron.length : Int) →
      prefix_count words (pron.take (word_unique words pron).toNat) = 1) := by
  have hL : 0 < pron.length := List.length_pos.mpr hne
  set cs := (prefixes pron).map (prefix_count words) with hcs
  have hwu : word_unique words pron = uniqueness_point cs + 1 := rfl
  have hlen : cs.length = pron.length := by
    rw [hcs, List.length_map, prefixes_length]
  have hcselem : ∀ j : Nat, j < pron.length →
      cs[j]? = some (prefix_count words (pron.take (j + 1))) := by
    intro j hj
    rw [hcs, List.getElem?_map, prefixes_getElem? pron j hj]
    rfl
  refine ⟨by rw [uniqueness_point]; rfl, ?_⟩
  by_cases hmem : (1 : Nat) ∈ cs
  · have h1 : uniqueness_point cs = (cs.indexOf 1 : Int) := by
      rw [uniqueness_point, if_pos hmem]
    have hidxlt : cs.indexOf 1 < pron.length := by
      rw [← hlen]
      exact List.indexOf_lt_length.mpr hmem
    have hattain : cs[cs.indexOf 1]? = some 1 := List.getElem?_indexOf hmem
    have hat : prefix_count words (pron.take (cs.indexOf 1 + 1)) = 1 := by
      have h2 := hcselem (cs.indexOf 1) hidxlt
      rw [h2] at hattain
      exact Option.some_injective _ hattain.symm |>.symm
    have hmin : ∀ j : Nat, j < cs.indexOf 1 →
        prefix_count words (pron.take (j + 1)) ≠ 1 := by
      intro j hj hq
      have h2 := indexOf_minimal cs j hj
      have h3 := hcselem j (by omega)
      rw [h3, hq] at h2
      exact h2 rfl
    refine ⟨?_, ?_, ?_, ?_, ?_⟩
    · rw [hwu, h1]
      constructor
      · omega
      · omega
    · intro j hj1 hj2
      rw [hwu, h1] at hj2
      have hj3 : j - 1 < cs.indexOf 1 := by omega
      have := hmin (j - 1) hj3
      rwa [show j - 1 + 1 = j by omega] at this
    · intro _
      rw [hwu, h1]
      rw [show ((cs.indexOf 1 : Int) + 1).toNat = cs.indexOf 1 + 1 by omega]
      exact hat
    · intro hall
      exact absurd hat (hall (cs.indexOf 1 + 1) (by omega) (by omega))
    · intro _
      rw [hwu, h1]
      rw [show ((cs.indexOf 1 : Int) + 1).toNat = cs.indexOf 1 + 1 by omega]
      exact hat
  · have h1 : uniqueness_point cs = (cs.length : Int) - 1 := by
      rw [uniqueness_point, if_neg hmem]
    have hnone : ∀ j : Nat, 1 ≤ j → j ≤ pron.length →
        prefix_count words (pron.take j) ≠ 1 := by
      intro j h1j h2j hq
      apply hmem
      have h2 := hcselem (j - 1) (by omega)
      rw [show j - 1 + 1 = j by omega, hq] at h2
      exact List.getElem?_mem h2
    refine ⟨?_, ?_, ?_, ?_, ?_⟩
    · rw [hwu, h1, hlen]
      constructor
      · omega
      · omega
    · intro j hj1 hj2
      rw [hwu, h1, hlen] at hj2
      exact hnone j hj1 (by omega)
    · intro ⟨j, hj1, hj2, hj3⟩
      exact absurd hj3 (hnone j hj1 hj2)
    · intro _
      rw [hwu, h1, hlen]
      omega
    · intro hq
      rw [hwu, h1, hlen] at hq
      omega

/-- Witness for C4, at the pronunciation ['a','b'] of the two-word index
(whose uniqueness point is position 2, where the cohort narrows to one). -/
theorem C4_uniqueness_point_witness :
    (['a', 'b'] ≠ ([] : Pron)) ∧
    ((uniqueness_point ([] : List Nat) = -1) ∧
      (1 ≤ word_unique wordsAB ['a', 'b'] ∧
        word_unique wordsAB ['a', 'b'] ≤ ((['a', 'b'] : Pron).length : Int)) ∧
      (∀ j : Nat, 1 ≤ j → (j : Int) < word_unique wordsAB ['a', 'b'] →
        prefix_count wordsAB ((['a', 'b'] : Pron).take j) ≠ 1) ∧
      ((∃ j : Nat, 1 ≤ j ∧ j ≤ (['a', 'b'] : Pron).length ∧
          prefix_count wordsAB ((['a', 'b'] : Pron).take j) = 1) →
        prefix_count wordsAB ((['a', 'b'] : Pron).take (word_unique wordsAB ['a', 'b']).toNat) = 1) ∧
      ((∀ j : Nat, 1 ≤ j → j ≤ (['a', 'b'] : Pron).length →
          prefix_count wordsAB ((['a', 'b'] : Pron).take j) ≠ 1) →
        word_unique wordsAB ['a', 'b'] = ((['a', 'b'] : Pron).length : Int)) ∧
      (word_unique wordsAB ['a', 'b'] ≠ ((['a', 'b'] : Pron).length : Int) →
        prefix_count wordsAB ((['a', 'b'] : Pron).take (word_unique wordsAB ['a', 'b']).toNat) = 1)) :=
  ⟨by decide, C4_uniqueness_point wordsAB ['a', 'b'] (by decide)⟩

theorem prefixes_eq_cons (pron : Pron) (hne : pron ≠ []) :
    prefixes pron = pron.take 1 :: (prefixes pron).drop 1 := by
  have h0 : (prefixes pron)[0]? = some (pron.take 1) :=
    prefixes_getElem? pron 0 (List.length_pos.mpr hne)
  cases hp : prefixes pron with
  | nil =>
    rw [hp] at h0
    cases h0
  | cons a t =>
    rw [hp, List.getElem?_cons_zero] at h0
    have ha : a = pron.take 1 := Option.some_injective _ h0
    rw [← ha]
    rfl

/-- C1 amended: the per-word summary surprisal scalars (mean, min, max, both
weightings) are computed over the surprisal values at all positions 1..L of
the prefix chain; the first position's surprisal — defined relative to the
special empty prefix — is included, not excluded, and no None placeholder
reaches the summary computation. -/
theorem C1_summary_includes_first (word_freqs : String → Option Nat)
    (words : List (String × Pron)) (pron : Pron) (hne : pron ≠ [])
    (v w : ℝ) (vs ws : List ℝ)
    (hv : prefix_uniform_surprisal word_freqs words (pron.take 1) = Except.ok v)
    (hvs : mapE (prefix_uniform_surprisal word_freqs words) ((prefixes pron).drop 1) =
      Except.ok vs)
    (hw : prefix_freq_surprisal word_freqs words (pron.take 1) = Except.ok w)
    (hws : mapE (prefix_freq_surprisal word_freqs words) ((prefixes pron).drop 1) =
      Except.ok ws) :
    sur_mean_uniform word_freqs words pron = Except.ok ((v + vs.sum) / (pron.length : ℝ)) ∧
    sur_min_uniform word_freqs words pron = Except.ok (vs.foldl min v) ∧
    sur_max_uniform word_freqs words pron = Except.ok (vs.foldl max v) ∧
    sur_mean_freq word_freqs words pron = Except.ok ((w + ws.sum) / (pron.length : ℝ)) ∧
    sur_min_freq word_freqs words pron = Except.ok (ws.foldl min w) ∧
    sur_max_freq word_freqs words pron = Except.ok (ws.foldl max w) := by
  have hu : word_sur_uniform word_freqs words pron = Except.ok (v :: vs) := by
    rw [word_sur_uniform, prefixes_eq_cons pron hne, mapE_cons, hv, hvs]
    rfl
  have hf : word_sur_freq word_freqs words pron = Except.ok (w :: ws) := by
    rw [word_sur_freq, prefixes_eq_cons pron hne, mapE_cons, hw, hws]
    rfl
  have hlvs : vs.length = pron.length - 1 := by
    have h := mapE_ok_length _ _ _ hvs
    rw [List.length_drop, prefixes_length] at h
    exact h
  have hlws : ws.length = pron.length - 1 := by
    have h := mapE_ok_length _ _ _ hws
    rw [List.length_drop, prefixes_length] at h
    exact h
  have hL : 0 < pron.length := List.length_pos.mpr hne
  have hlenv : ((v :: vs) : List ℝ).length = pron.length := by
    rw [List.length_cons, hlvs]
    omega
  have hlenw : ((w :: ws) : List ℝ).length = pron.length := by
    rw [List.length_cons, hlws]
    omega
  refine ⟨?_, ?_, ?_, ?_, ?_, ?_⟩
  · rw [sur_mean_uniform, hu]
    show _mean (v :: vs) = _
    rw [_mean, if_neg (by rw [hlenv]; omega), List.sum_cons, hlenv]
  · rw [sur_min_uniform, hu]
    rfl
  · rw [sur_max_uniform, hu]
    rfl
  · rw [sur_mean_freq, hf]
    show _mean (w :: ws) = _
    rw [_mean, if_neg (by rw [hlenw]; omega), List.sum_cons, hlenw]
  · rw [sur_min_freq, hf]
    rfl
  · rw [sur_max_freq, hf]
    rfl

theorem eval_uni_sur_a : prefix_uniform_surprisal noFreqSource wordsAB ['a'] = Except.ok 0 := by
  rw [prefix_uniform_surprisal, show (['a'] : Pron).dropLast = ([] : Pron) from rfl,
    (by decide : (prefix_freq_list noFreqSource wordsAB ['a']).length = 2),
    (by decide : (prefix_freq_list noFreqSource wordsAB ([] : Pron)).length = 2)]
  exact surprisal_self _ _

theorem eval_uni_sur_ab :
    prefix_uniform_surprisal noFreqSource wordsAB ['a', 'b'] = Except.ok 1 := by
  rw [prefix_uniform_surprisal, show (['a', 'b'] : Pron).dropLast = (['a'] : Pron) from rfl,
    (by decide : (prefix_freq_list noFreqSource wordsAB ['a', 'b']).length = 1),
    (by decide : (prefix_freq_list noFreqSource wordsAB ['a']).length = 2)]
  rw [surprisal_of_lt (by norm_num) (by norm_num) 2]
  norm_num [Real.logb_one, Real.logb_self_eq_one one_lt_two]

theorem eval_freq_sur_a : prefix_freq_surprisal noFreqSource wordsAB ['a'] = Except.ok 0 := by
  rw [prefix_freq_surprisal, show (['a'] : Pron).dropLast = ([] : Pron) from rfl,
    (by decide : prefix_freq noFreqSource wordsAB ['a'] = 2),
    (by decide : prefix_freq noFreqSource wordsAB ([] : Pron) = 2)]
  exact surprisal_self _ _

theorem eval_freq_sur_ab :
    prefix_freq_surprisal noFreqSource wordsAB ['a', 'b'] = Except.ok 1 := by
  rw [prefix_freq_surprisal, show (['a', 'b'] : Pron).dropLast = (['a'] : Pron) from rfl,
    (by decide : prefix_freq noFreqSource wordsAB ['a', 'b'] = 1),
    (by decide : prefix_freq noFreqSource wordsAB ['a'] = 2)]
  rw [surprisal_of_lt (by norm_num) (by norm_num) 2]
  norm_num [Real.logb_one, Real.logb_self_eq_one one_lt_two]

/-- C1 counterexample: for the index "u" → ['a','b'], "v" → ['a','c'] with no
frequency information, the code's mean unweighted surprisal for ['a','b'] is
(0 + 1)/2 = 1/2, including the position-1 surprisal (0, relative to the empty
prefix), whereas the mean over positions 2..L alone — as the claim states —
would be 1. -/
theorem C1_counterexample :
    sur_mean_uniform noFreqSource wordsAB ['a', 'b'] = Except.ok (1 / 2) ∧
    spec_sur_mean_uniform noFreqSource wordsAB ['a', 'b'] = Except.ok 1 ∧
    ((1 : ℝ) / 2 ≠ 1) := by
  have hlist : word_sur_uniform noFreqSource wordsAB ['a', 'b'] =
      Except.ok [0, 1] := by
    rw [word_sur_uniform, show prefixes ['a', 'b'] = [['a'], ['a', 'b']] from rfl,
      mapE_cons, eval_uni_sur_a, mapE_cons, eval_uni_sur_ab]
    rfl
  refine ⟨?_, ?_, by norm_num⟩
  · rw [sur_mean_uniform, hlist]
    show _mean [0, 1] = _
    rw [_mean, if_neg (by norm_num)]
    norm_num
  · rw [spec_sur_mean_uniform, show (prefixes ['a', 'b']).drop 1 = [['a', 'b']] from rfl,
      mapE_cons, eval_uni_sur_ab]
    show _mean [1] = _
    rw [_mean, if_neg (by norm_num)]
    norm_num

/-- Witness for C1 (amended), at the pronunciation ['a','b'] of the index
"u" → ['a','b'], "v" → ['a','c']. -/
theorem C1_summary_includes_first_witness :
    (['a', 'b'] ≠ ([] : Pron)) ∧
    sur_mean_uniform noFreqSource wordsAB ['a', 'b'] =
      Except.ok ((0 + ([1] : List ℝ).sum) / (((['a', 'b'] : Pron).length : ℕ) : ℝ)) ∧
    sur_min_uniform noFreqSource wordsAB ['a', 'b'] =
      Except.ok (([1] : List ℝ).foldl min 0) ∧
    sur_max_uniform noFreqSource wordsAB ['a', 'b'] =
      Except.ok (([1] : List ℝ).foldl max 0) ∧
    sur_mean_freq noFreqSource wordsAB ['a', 'b'] =
      Except.ok ((0 + ([1] : List ℝ).sum) / (((['a', 'b'] : Pron).length : ℕ) : ℝ)) ∧
    sur_min_freq noFreqSource wordsAB ['a', 'b'] =
      Except.ok (([1] : List ℝ).foldl min 0) ∧
    sur_max_freq noFreqSource wordsAB ['a', 'b'] =
      Except.ok (([1] : List ℝ).foldl max 0) := by
  have hvs : mapE (prefix_uniform_surprisal noFreqSource wordsAB)
      ((prefixes ['a', 'b']).drop 1) = Except.ok [1] := by
    rw [show (prefixes ['a', 'b']).drop 1 = [['a', 'b']] from rfl, mapE_cons, eval_uni_sur_ab]
    rfl
  have hws : mapE (prefix_freq_surprisal noFreqSource wordsAB)
      ((prefixes ['a', 'b']).drop 1) = Except.ok [1] := by
    rw [show (prefixes ['a', 'b']).drop 1 = [['a', 'b']] from rfl, mapE_cons, eval_freq_sur_ab]
    rfl
  have h := C1_summary_includes_first noFreqSource wordsAB ['a', 'b'] (by decide)
    0 0 [1] [1]
    (by rw [show (['a', 'b'] : Pron).take 1 = ['a'] from rfl]; exact eval_uni_sur_a) hvs
    (by rw [show (['a', 'b'] : Pron).take 1 = ['a'] from rfl]; exact eval_freq_sur_a) hws
  exact ⟨by decide, h.1, h.2.1, h.2.2.1, h.2.2.2.1, h.2.2.2.2.1, h.2.2.2.2.2⟩

/-- C9 counterexample: for the index "x" → ['a'], "y" → ['b'] with no
frequency information, the frequency-weighted surprisal chain of ['a'] sums to
1 and already equals -log2(freqOf(['a']) / freqOf("")) = 1; adding the
frequency-weighted entropy at the empty prefix (also 1) gives 2 ≠ 1, so the
claim's "plus the entropy at the empty prefix" clause is false. -/
theorem C9_counterexample :
    word_sur_freq noFreqSource wordsTwo ['a'] = Except.ok [1] ∧
    prefix_freq_entropy noFreqSource wordsTwo ([] : Pron) = Except.ok 1 ∧
    ((1 : ℝ) + 1 ≠ -Real.logb 2 ((prefix_freq noFreqSource wordsTwo ['a'] : ℝ) /
      (prefix_freq noFreqSource wordsTwo ([] : Pron) : ℝ))) := by
  have hlogb : Real.logb 2 ((1 : ℝ) / 2) = -1 := by
    rw [one_div, Real.logb_inv, Real.logb_self_eq_one one_lt_two]
  have hsur : prefix_freq_surprisal noFreqSource wordsTwo ['a'] = Except.ok 1 := by
    rw [prefix_freq_surprisal, show (['a'] : Pron).dropLast = ([] : Pron) from rfl,
      (by decide : prefix_freq noFreqSource wordsTwo ['a'] = 1),
      (by decide : prefix_freq noFreqSource wordsTwo ([] : Pron) = 2)]
    rw [surprisal_of_lt (by norm_num) (by norm_num) 2]
    norm_num [Real.logb_one, Real.logb_self_eq_one one_lt_two]
  refine ⟨?_, ?_, ?_⟩
  · rw [word_sur_freq, show prefixes ['a'] = [['a']] from rfl, mapE_cons, hsur]
    rfl
  · rw [prefix_freq_entropy,
      (by decide : prefix_freq_list noFreqSource wordsTwo ([] : Pron) = [1, 1])]
    have hmap : ([1, 1] : List ℕ).map (fun n => (n : ℝ)) = [1, 1] := by norm_num
    rw [hmap]
    have hnorm : normalize_counts [(1 : ℝ), 1] = [1 / 2, 1 / 2] := by
      unfold normalize_counts
      norm_num
    rw [hnorm]
    rw [entropy_ok (tolerance_of_sum_one (by norm_num)) (by norm_num) (by
      intro q hq
      rcases List.mem_cons.mp hq with h | h
      · rw [h]; norm_num
      · rw [List.mem_singleton.mp h]; norm_num)]
    norm_num [hlogb]
  · rw [(by decide : prefix_freq noFreqSource wordsTwo ['a'] = 1),
      (by decide : prefix_freq noFreqSource wordsTwo ([] : Pron) = 2)]
    norm_num [hlogb]
